import Mathlib

/-!
Shallow embedding of the yaets tracing library
(src/yaets/tracing.cpp, include/yaets/tracing.hpp).

Conventions of the embedding:
* `std::chrono::nanoseconds` durations and instants are modelled as `Int`
  (exact integer nanosecond counts).
* `std::string` is modelled as Lean `String`, except in the signature-parsing
  helper `extract_trace_name`, where character-level operations are involved
  and the string is modelled as `List Char`.
* The nondeterministic clock reads (`high_resolution_clock::now()`) are
  explicit parameters of the operations that perform them.
* Stateful C++ methods become pure state-transition functions; a method that
  also submits an event to the session (`NamedSharedTrace::end`) returns the
  submitted raw event alongside the new state.
* The background consumer thread of `TraceSession` drains the queue into the
  file at nondeterministic moments; a run of the session is therefore a list
  of actions (registrations interleaved with arbitrary drains) followed by
  `stop`, which performs the final drain and closes the file.
-/

namespace Yaets

/-- Embedding of `struct TraceEvent`: name plus start/end offsets in
nanoseconds relative to the session start. -/
structure TraceEvent where
  trace_name : String
  start_time : Int
  end_time : Int
deriving Repr, DecidableEq

/-- One line written by `TraceSession::trace_consumer` for an event:
`trace_file << event.trace_name << " " << event.start_time.count() << " "
<< event.end_time.count() << "\n"`. -/
def serializeEvent (e : TraceEvent) : String :=
  e.trace_name ++ " " ++ toString e.start_time ++ " " ++ toString e.end_time

/-- Embedding of `class TraceSession`. `fileLines` is the content of the
destination file (one entry per written line); `fileClosed` records whether
the consumer has closed it. -/
structure TraceSession where
  running : Bool
  session_start_time : Int
  trace_queue : List TraceEvent
  fileLines : List String
  fileClosed : Bool
deriving Repr, DecidableEq

namespace TraceSession

/-- Embedding of the constructor `TraceSession::TraceSession`: running is set,
the session start time is captured, the queue is empty, the consumer thread
starts with an empty (freshly opened) file. -/
def create (reference : Int) : TraceSession :=
  { running := true
    session_start_time := reference
    trace_queue := []
    fileLines := []
    fileClosed := false }

/-- Embedding of `TraceSession::register_trace`: builds the event with offsets
relative to `session_start_time_` and pushes it at the back of the queue. -/
def register_trace (s : TraceSession) (name : String) (t0 t1 : Int) :
    TraceSession :=
  { s with
    trace_queue := s.trace_queue ++
      [{ trace_name := name
         start_time := t0 - s.session_start_time
         end_time := t1 - s.session_start_time }] }

/-- Embedding of the inner loop of `TraceSession::trace_consumer`: pop every
queued event and append its serialized line to the file. -/
def drain (s : TraceSession) : TraceSession :=
  { s with
    fileLines := s.fileLines ++ s.trace_queue.map serializeEvent
    trace_queue := [] }

/-- Embedding of `TraceSession::stop`: if running, clear the flag and join the
consumer, which drains the remaining queue and closes the file; otherwise do
nothing. -/
def stop (s : TraceSession) : TraceSession :=
  if s.running then
    { s.drain with running := false, fileClosed := true }
  else s

/-- Embedding of the destructor `TraceSession::~TraceSession`, which just
calls `stop()`. -/
def destructor (s : TraceSession) : TraceSession :=
  s.stop

end TraceSession

/-- One step of a session run while the session is alive: either a producer
calls `register_trace`, or the consumer thread wakes and drains the queue. -/
inductive SessionAction where
  | register (name : String) (t0 t1 : Int)
  | drain
deriving Repr, DecidableEq

/-- Apply one action to the session state. -/
def applyAction (s : TraceSession) : SessionAction → TraceSession
  | .register n t0 t1 => s.register_trace n t0 t1
  | .drain => s.drain

/-- Run a list of actions left to right. -/
def runActions (s : TraceSession) (as : List SessionAction) : TraceSession :=
  as.foldl applyAction s

/-- The events a list of actions submits, already expressed relative to the
reference instant `r` (what `register_trace` enqueues). -/
def registeredEvents (r : Int) (as : List SessionAction) : List TraceEvent :=
  as.filterMap fun a =>
    match a with
    | .register n t0 t1 => some { trace_name := n, start_time := t0 - r, end_time := t1 - r }
    | .drain => none

/-- `NamedSharedTrace::TRACE_SIZE_INIT = 100`: the size of the
`start_times_` vector created by the constructor. -/
def TRACE_SIZE_INIT : Nat := 100

/-- Embedding of `class NamedSharedTrace`. `start_times` models the
fixed-size `std::vector<std::chrono::nanoseconds> start_times_` (its length is
the capacity and never changes); `counter_push` / `counter_pop` are the tail
and head cursors; `elements` the live count. The bound session reference is
not part of the state: `end` returns the raw event it would pass to
`session_.register_trace`. -/
structure NamedSharedTrace where
  trace_name : String
  counter_push : Nat
  counter_pop : Nat
  elements : Nat
  start_times : List Int
deriving Repr, DecidableEq

namespace NamedSharedTrace

/-- The capacity of the ring buffer: `start_times_.size()`. -/
def capacity (t : NamedSharedTrace) : Nat :=
  t.start_times.length

/-- Embedding of the constructor `NamedSharedTrace::NamedSharedTrace` with an
explicit buffer size (the C++ constructor always passes `TRACE_SIZE_INIT`; see
`create`). `std::vector<nanoseconds>(n)` value-initializes to zeros. -/
def createWithCapacity (name : String) (cap : Nat) : NamedSharedTrace :=
  { trace_name := name
    counter_push := 0
    counter_pop := 0
    elements := 0
    start_times := List.replicate cap 0 }

/-- Embedding of the constructor `NamedSharedTrace::NamedSharedTrace`:
cursors and live count zero, buffer of size `TRACE_SIZE_INIT`. -/
def create (name : String) : NamedSharedTrace :=
  createWithCapacity name TRACE_SIZE_INIT

/-- Embedding of `NamedSharedTrace::start` with the clock read `now` as a
parameter: if `elements_ >= start_times_.size()` warn and return; otherwise
increment `elements_`, write `now` at the push cursor and advance the push
cursor mod capacity. -/
def start (t : NamedSharedTrace) (now : Int) : NamedSharedTrace :=
  if t.elements ≥ t.start_times.length then t
  else
    { t with
      elements := t.elements + 1
      start_times := t.start_times.set t.counter_push now
      counter_push := (t.counter_push + 1) % t.start_times.length }

/-- Embedding of `NamedSharedTrace::end` with the clock read `now` as a
parameter: if `elements_ == 0` warn and return (no submission); otherwise
submit `(trace_name_, start_times_[counter_pop_], now)` to the session via
`register_trace`, advance the pop cursor mod capacity and decrement
`elements_`. The submitted raw triple is returned alongside the new state. -/
def «end» (t : NamedSharedTrace) (now : Int) :
    NamedSharedTrace × Option (String × Int × Int) :=
  if t.elements = 0 then (t, none)
  else
    ({ t with
       counter_pop := (t.counter_pop + 1) % t.start_times.length
       elements := t.elements - 1 },
     some (t.trace_name, t.start_times.getD t.counter_pop 0, now))

end NamedSharedTrace

/-- Iterate `NamedSharedTrace.start`, one clock value per call. -/
def startMany (t : NamedSharedTrace) (nows : List Int) : NamedSharedTrace :=
  nows.foldl NamedSharedTrace.start t

/-- Iterate `NamedSharedTrace.end`, one clock value per call, collecting the
events submitted to the session. -/
def endMany (t : NamedSharedTrace) (nows : List Int) :
    NamedSharedTrace × List (String × Int × Int) :=
  match nows with
  | [] => (t, [])
  | n :: ns =>
    let step := t.«end» n
    let rest := endMany step.1 ns
    (rest.1, step.2.toList ++ rest.2)

/-- Embedding of `class TraceRegistry`: the identifier → trace map
(`std::unordered_map<std::string, std::unique_ptr<NamedSharedTrace>>`)
modelled as an association list. -/
structure TraceRegistry where
  traces : List (String × NamedSharedTrace)
deriving Repr, DecidableEq

namespace TraceRegistry

/-- `traces_.count(id)` as a lookup: the entry for `id`, if present. -/
def lookup (r : TraceRegistry) (id : String) : Option NamedSharedTrace :=
  (r.traces.find? fun p => p.1 = id).map Prod.snd

/-- Embedding of `TraceRegistry::registerTrace`:
`traces_[id] = make_unique<NamedSharedTrace>(session, id)` — replaces any
prior entry for `id` with a fresh trace named `id`. -/
def registerTrace (r : TraceRegistry) (id : String) : TraceRegistry :=
  { traces := (r.traces.filter fun p => p.1 ≠ id) ++
      [(id, NamedSharedTrace.create id)] }

/-- Embedding of `TraceRegistry::startTrace`: if `traces_.count(id)`, forward
to the entry's `start`; otherwise do nothing. -/
def startTrace (r : TraceRegistry) (id : String) (now : Int) : TraceRegistry :=
  if (r.traces.find? fun p => p.1 = id).isSome then
    { traces := r.traces.map fun p => if p.1 = id then (p.1, p.2.start now) else p }
  else r

/-- Embedding of `TraceRegistry::endTrace`: if `traces_.count(id)`, forward to
the entry's `end`, returning the event that call submits to the session;
otherwise do nothing and submit nothing. -/
def endTrace (r : TraceRegistry) (id : String) (now : Int) :
    TraceRegistry × Option (String × Int × Int) :=
  match (r.traces.find? fun p => p.1 = id).map Prod.snd with
  | some t =>
    ({ traces := r.traces.map fun p => if p.1 = id then (p.1, (p.2.«end» now).1) else p },
     (t.«end» now).2)
  | none => (r, none)

end TraceRegistry

/-- `result.find(c)` on a `std::string` modelled as `List Char`: index of the
first occurrence of `c`, if any. -/
def strFind (s : List Char) (c : Char) : Option Nat :=
  s.findIdx? (· = c)

/-- `result.rfind(c)`: index of the last occurrence of `c`, if any. -/
def strRfind (s : List Char) (c : Char) : Option Nat :=
  (s.reverse.findIdx? (· = c)).map (fun i => s.length - 1 - i)

/-- First step of `TraceGuard::extract_trace_name`:
`pos = result.find(c); if (pos != npos) result = result.substr(0, pos)`. -/
def truncAtFirst (s : List Char) (c : Char) : List Char :=
  match strFind s c with
  | some pos => s.take pos
  | none => s

/-- Second step of `TraceGuard::extract_trace_name`:
`pos = result.rfind(c); if (pos != npos) result = result.substr(pos + 1)`. -/
def afterLast (s : List Char) (c : Char) : List Char :=
  match strRfind s c with
  | some pos => s.drop (pos + 1)
  | none => s

/-- Embedding of `TraceGuard::extract_trace_name`: truncate at the first
`'('` if present (`substr(0, pos)`), then keep the suffix strictly after the
last `' '` if present (`substr(pos + 1)`). -/
def extract_trace_name (function_signature : List Char) : List Char :=
  afterLast (truncAtFirst function_signature '(') ' '

/-- Modelled from the spec (name-derivation description, for comparison with
the code): "drop everything from the first `(` onward". -/
def specTruncAtFirstParen (s : List Char) : List Char :=
  s.takeWhile (· ≠ '(')

/-- Modelled from the spec (name-derivation description, for comparison with
the code): "keep only the substring after the last remaining space". -/
def specAfterLastSpace (s : List Char) : List Char :=
  (s.reverse.takeWhile (· ≠ ' ')).reverse

/-- The cursor-coherence invariant of the ring buffer: the push cursor sits
`elements` slots past the pop cursor (mod capacity) and both cursors are
in bounds. -/
def NamedSharedTrace.Coherent (t : NamedSharedTrace) : Prop :=
  t.counter_push = (t.counter_pop + t.elements) % t.start_times.length ∧
  t.counter_push < t.start_times.length ∧
  t.counter_pop < t.start_times.length

instance (t : NamedSharedTrace) : Decidable t.Coherent := by
  unfold NamedSharedTrace.Coherent
  infer_instance

/-- The still-unmatched start instants of a trace, oldest first: the
`elements` buffer slots beginning at the pop cursor. -/
def NamedSharedTrace.pending (t : NamedSharedTrace) : List Int :=
  (List.range t.elements).map fun i =>
    t.start_times.getD ((t.counter_pop + i) % t.start_times.length) 0

/-! ## Helper lemmas -/

/-- `start` grows the live count up to the buffer size and never touches the
buffer size. -/
theorem start_elements_min (t : NamedSharedTrace) (now : Int)
    (h : t.elements ≤ t.start_times.length) :
    (t.start now).elements = min (t.elements + 1) t.start_times.length ∧
    (t.start now).start_times.length = t.start_times.length := by
  by_cases hfull : t.elements ≥ t.start_times.length
  · constructor
    · simp only [NamedSharedTrace.start, if_pos hfull]
      omega
    · simp only [NamedSharedTrace.start, if_pos hfull]
  · constructor
    · simp only [NamedSharedTrace.start, if_neg hfull]
      omega
    · simp only [NamedSharedTrace.start, if_neg hfull, List.length_set]

/-- Iterated `start` from a state with a valid live count: the live count
saturates at the buffer size. -/
theorem startMany_elements (nows : List Int) (t : NamedSharedTrace)
    (h : t.elements ≤ t.start_times.length) :
    (startMany t nows).elements =
      min (t.elements + nows.length) t.start_times.length ∧
    (startMany t nows).start_times.length = t.start_times.length := by
  induction nows generalizing t with
  | nil =>
    constructor
    · simp [startMany]
      omega
    · simp [startMany]
  | cons n ns ih =>
    have hstep := start_elements_min t n h
    have hstep2 : (t.start n).elements ≤ (t.start n).start_times.length := by
      omega
    have hrec := ih (t.start n) hstep2
    have hunfold : startMany t (n :: ns) = startMany (t.start n) ns := rfl
    rw [hunfold]
    constructor
    · rw [hrec.1, hstep.1, hstep.2]
      simp only [List.length_cons]
      omega
    · rw [hrec.2, hstep.2]

/-- Iterated `end`: each call on a nonempty buffer submits exactly one event,
so the number of submitted events is the number of calls capped by the live
count. -/
theorem endMany_events_length (nows : List Int) (t : NamedSharedTrace) :
    (endMany t nows).2.length = min nows.length t.elements := by
  induction nows generalizing t with
  | nil => simp [endMany]
  | cons n ns ih =>
    by_cases he : t.elements = 0
    · have hend : t.«end» n = (t, none) := by
        simp [NamedSharedTrace.«end», he]
      simp [endMany, hend, ih t, he]
    · have h1 : (t.«end» n).1.elements = t.elements - 1 := by
        simp [NamedSharedTrace.«end», he]
      have h2 : (t.«end» n).2.toList.length = 1 := by
        simp [NamedSharedTrace.«end», he]
      have hunfold : (endMany t (n :: ns)).2 =
          (t.«end» n).2.toList ++ (endMany (t.«end» n).1 ns).2 := rfl
      rw [hunfold, List.length_append, h2, ih, h1, List.length_cons]
      omega

/-- A run of session actions preserves the reference instant, the running
flag and the open/closed state, and the file content plus the serialized
queue together list exactly the serialized registered events, in order. -/
theorem runActions_spec (as : List SessionAction) (s : TraceSession) :
    (runActions s as).session_start_time = s.session_start_time ∧
    (runActions s as).running = s.running ∧
    (runActions s as).fileClosed = s.fileClosed ∧
    (runActions s as).fileLines ++ ((runActions s as).trace_queue).map serializeEvent =
      s.fileLines ++ (s.trace_queue).map serializeEvent ++
        (registeredEvents s.session_start_time as).map serializeEvent := by
  induction as generalizing s with
  | nil => simp [runActions, registeredEvents]
  | cons a as ih =>
    have hstep : runActions s (a :: as) = runActions (applyAction s a) as := rfl
    rcases a with ⟨n, t0, t1⟩ | _
    · have h := ih (applyAction s (.register n t0 t1))
      rw [hstep]
      refine ⟨h.1, h.2.1, h.2.2.1, ?_⟩
      rw [h.2.2.2]
      simp [applyAction, TraceSession.register_trace, registeredEvents]
    · have h := ih (applyAction s .drain)
      rw [hstep]
      refine ⟨h.1, h.2.1, h.2.2.1, ?_⟩
      rw [h.2.2.2]
      simp [applyAction, TraceSession.drain, registeredEvents]

/-- `getD` after `set` at the written index. -/
theorem getD_set_self (l : List Int) (i : Nat) (a d : Int) (h : i < l.length) :
    (l.set i a).getD i d = a := by
  simp [List.getD_eq_getElem?_getD, List.getElem?_set_self h]

/-- `getD` after `set` at a different index. -/
theorem getD_set_ne (l : List Int) (i j : Nat) (a d : Int) (h : i ≠ j) :
    (l.set i a).getD j d = l.getD j d := by
  simp [List.getD_eq_getElem?_getD, List.getElem?_set_ne h]

/-- Two ring-buffer offsets below an occupancy that fits in the buffer map to
distinct slots. -/
theorem ring_slot_ne {len pop i e : Nat} (hi : i < e) (he : e < len) :
    (pop + i) % len ≠ (pop + e) % len := by
  intro hmod
  have hle : pop + i ≤ pop + e := by omega
  have hdvd : len ∣ pop + e - (pop + i) :=
    (Nat.modEq_iff_dvd' hle).mp hmod
  have hsub : pop + e - (pop + i) = e - i := by omega
  rw [hsub] at hdvd
  have hpos : 0 < e - i := by omega
  have := Nat.le_of_dvd hpos hdvd
  omega

/-- An accepted `start` appends the new instant at the back of the pending
FIFO and changes nothing else in it. -/
theorem pending_after_start (t : NamedSharedTrace) (now : Int) (h : t.Coherent)
    (hroom : t.elements < t.start_times.length) :
    (t.start now).pending = t.pending ++ [now] := by
  obtain ⟨hpush, hplt, hqlt⟩ := h
  have hnotfull : ¬ t.elements ≥ t.start_times.length := by omega
  have h1 : (t.start now).elements = t.elements + 1 := by
    simp [NamedSharedTrace.start, hnotfull]
  have h2 : (t.start now).counter_pop = t.counter_pop := by
    simp [NamedSharedTrace.start, hnotfull]
  have h3 : (t.start now).start_times = t.start_times.set t.counter_push now := by
    simp [NamedSharedTrace.start, hnotfull]
  unfold NamedSharedTrace.pending
  rw [h1, h2, h3, List.length_set, List.range_succ, List.map_append]
  congr 1
  · apply List.map_congr_left
    intro i hi
    have hi' : i < t.elements := List.mem_range.mp hi
    apply getD_set_ne
    rw [hpush]
    exact (ring_slot_ne hi' hroom).symm
  · simp only [List.map_cons, List.map_nil]
    rw [← hpush]
    rw [getD_set_self _ _ _ _ hplt]

/-- A successful `end` submits exactly the front of the pending FIFO (the
slot at the pop cursor) and removes it, leaving the rest in order. -/
theorem pending_after_end (t : NamedSharedTrace) (now : Int) (h : t.Coherent)
    (he : t.elements ≠ 0) :
    (t.«end» now).2 = some (t.trace_name, t.pending.headD 0, now) ∧
    (t.«end» now).1.pending = t.pending.tail := by
  obtain ⟨hpush, hplt, hqlt⟩ := h
  obtain ⟨k, hk⟩ : ∃ k, t.elements = k + 1 :=
    ⟨t.elements - 1, by omega⟩
  have hpendcons : t.pending = t.start_times.getD t.counter_pop 0 ::
      (List.range k).map (fun i =>
        t.start_times.getD ((t.counter_pop + (i + 1)) % t.start_times.length) 0) := by
    unfold NamedSharedTrace.pending
    rw [hk, List.range_succ_eq_map, List.map_cons, List.map_map]
    congr 1
    · rw [Nat.add_zero, Nat.mod_eq_of_lt hqlt]
  have h1 : (t.«end» now).1.counter_pop =
      (t.counter_pop + 1) % t.start_times.length := by
    simp [NamedSharedTrace.«end», he]
  have h2 : (t.«end» now).1.elements = t.elements - 1 := by
    simp [NamedSharedTrace.«end», he]
  have h3 : (t.«end» now).1.start_times = t.start_times := by
    simp [NamedSharedTrace.«end», he]
  constructor
  · have hsub : (t.«end» now).2 =
        some (t.trace_name, t.start_times.getD t.counter_pop 0, now) := by
      simp [NamedSharedTrace.«end», he]
    rw [hsub, hpendcons]
    simp
  · unfold NamedSharedTrace.pending
    rw [h1, h2, h3, hk, Nat.add_sub_cancel, List.range_succ_eq_map, List.map_cons,
      List.tail_cons, List.map_map]
    apply List.map_congr_left
    intro i _
    have harg : ((t.counter_pop + 1) % t.start_times.length + i) % t.start_times.length
        = (t.counter_pop + Nat.succ i) % t.start_times.length := by
      rw [Nat.mod_add_mod]
      congr 1
      omega
    simp [harg]

/-! ## Claim theorems -/

/-- C1: for every sequence of events submitted via `register_trace` (with the
consumer draining at arbitrary points), after `stop()` returns the file
contains exactly the serialized lines of those events — one line
`<name> <start_offset> <end_offset>` per event, none lost, none duplicated,
in queue-drain order — and hence exactly N lines for N events. -/
theorem stop_persists_all_registered_events (r : Int) (as : List SessionAction) :
    ((runActions (TraceSession.create r) as).stop).fileLines =
      (registeredEvents r as).map serializeEvent ∧
    ((runActions (TraceSession.create r) as).stop).fileLines.length =
      (registeredEvents r as).length := by
  have h := runActions_spec as (TraceSession.create r)
  have hrun : (runActions (TraceSession.create r) as).running = true := h.2.1
  have hfile :
      (runActions (TraceSession.create r) as).stop.fileLines =
        (registeredEvents r as).map serializeEvent := by
    rw [TraceSession.stop, hrun]
    simp only [if_true]
    have := h.2.2.2
    simp [TraceSession.create] at this
    simpa [TraceSession.drain] using this
  exact ⟨hfile, by rw [hfile]; simp⟩

/-- C2: `register_trace(name, t0, t1)` enqueues exactly the event
`(name, t0 - reference, t1 - reference)`, where `reference` is the session
start instant, and its persisted line shows exactly those two integers. -/
theorem register_trace_offsets_exact (r : Int) (as : List SessionAction)
    (name : String) (t0 t1 : Int) :
    ((runActions (TraceSession.create r) as).register_trace name t0 t1).trace_queue =
      (runActions (TraceSession.create r) as).trace_queue ++
        [{ trace_name := name, start_time := t0 - r, end_time := t1 - r }] ∧
    serializeEvent { trace_name := name, start_time := t0 - r, end_time := t1 - r } =
      name ++ " " ++ toString (t0 - r) ++ " " ++ toString (t1 - r) := by
  have href := (runActions_spec as (TraceSession.create r)).1
  constructor
  · rw [TraceSession.register_trace, href]
    rfl
  · rfl

/-- C7: `stop()` is idempotent (a second `stop()`, or the destructor after a
`stop()`, leaves the state unchanged), and the first `stop()` on a running
session terminates it: the running flag is cleared, every queued event is
drained to the file, and the destination is closed. -/
theorem stop_idempotent_and_drains (s : TraceSession) :
    s.stop.stop = s.stop ∧
    s.stop.destructor = s.stop ∧
    (s.running = true →
      s.stop.running = false ∧
      s.stop.trace_queue = [] ∧
      s.stop.fileLines = s.fileLines ++ s.trace_queue.map serializeEvent ∧
      s.stop.fileClosed = true) := by
  have hidem : s.stop.stop = s.stop := by
    by_cases h : s.running
    · simp [TraceSession.stop, TraceSession.drain, h]
    · simp [TraceSession.stop, h]
  refine ⟨hidem, hidem, fun h => ?_⟩
  simp [TraceSession.stop, TraceSession.drain, h]

/-- Witness for C7 at a concrete running session. -/
theorem stop_idempotent_and_drains_witness :
    (TraceSession.create 3).stop.stop = (TraceSession.create 3).stop ∧
    (TraceSession.create 3).stop.running = false ∧
    (TraceSession.create 3).stop.fileClosed = true := by
  have h := stop_idempotent_and_drains (TraceSession.create 3)
  exact ⟨h.1, (h.2.2 rfl).1, (h.2.2 rfl).2.2.2⟩

/-- C4: `end()` on a trace with zero pending starts is a no-op: the state is
unchanged (no cursor moves, live count stays 0) and no event is submitted. -/
theorem end_without_start_noop (t : NamedSharedTrace) (now : Int)
    (h : t.elements = 0) :
    t.«end» now = (t, none) := by
  simp [NamedSharedTrace.«end», h]

/-- Witness for C4 at a freshly constructed trace. -/
theorem end_without_start_noop_witness :
    (NamedSharedTrace.create "f").elements = 0 ∧
    (NamedSharedTrace.create "f").«end» 42 = (NamedSharedTrace.create "f", none) :=
  ⟨rfl, end_without_start_noop (NamedSharedTrace.create "f") 42 rfl⟩

/-- C9: `startTrace`/`endTrace` on an identifier absent from the registry are
silent no-ops: the registry is unchanged and no event is submitted. -/
theorem unknown_id_silent_noop (r : TraceRegistry) (id : String) (now : Int)
    (h : r.lookup id = none) :
    r.startTrace id now = r ∧ r.endTrace id now = (r, none) := by
  have hfind : (r.traces.find? fun p => p.1 = id) = none := by
    simpa [TraceRegistry.lookup] using h
  constructor
  · simp [TraceRegistry.startTrace, hfind]
  · simp [TraceRegistry.endTrace, hfind]

/-- Witness for C9: the empty registry does not know identifier "x". -/
theorem unknown_id_silent_noop_witness :
    TraceRegistry.lookup { traces := [] } "x" = none ∧
    TraceRegistry.startTrace { traces := [] } "x" 5 = { traces := [] } ∧
    TraceRegistry.endTrace { traces := [] } "x" 5 = ({ traces := [] }, none) := by
  have h := unknown_id_silent_noop { traces := [] } "x" 5 rfl
  exact ⟨rfl, h.1, h.2⟩

/-- C6: the live count is always between 0 and the capacity: it is 0 at
construction (capacity `TRACE_SIZE_INIT = 100`) and the bound is preserved
by every `start` and `end` call (the capacity itself never changes). -/
theorem live_count_bounded :
    (∀ name : String,
      (NamedSharedTrace.create name).elements = 0 ∧
      (NamedSharedTrace.create name).capacity = TRACE_SIZE_INIT ∧
      TRACE_SIZE_INIT = 100 ∧
      (NamedSharedTrace.create name).elements ≤ (NamedSharedTrace.create name).capacity) ∧
    (∀ (t : NamedSharedTrace) (now : Int), t.elements ≤ t.capacity →
      (t.start now).elements ≤ (t.start now).capacity ∧
      (t.start now).capacity = t.capacity) ∧
    (∀ (t : NamedSharedTrace) (now : Int), t.elements ≤ t.capacity →
      ((t.«end» now).1).elements ≤ ((t.«end» now).1).capacity ∧
      ((t.«end» now).1).capacity = t.capacity) := by
  refine ⟨?_, ?_, ?_⟩
  · intro name
    refine ⟨rfl, ?_, rfl, ?_⟩ <;>
      simp [NamedSharedTrace.create, NamedSharedTrace.createWithCapacity,
        NamedSharedTrace.capacity]
  · intro t now h
    have hs := start_elements_min t now (by simpa [NamedSharedTrace.capacity] using h)
    constructor
    · simp only [NamedSharedTrace.capacity] at *
      omega
    · simp only [NamedSharedTrace.capacity] at *
      omega
  · intro t now h
    by_cases he : t.elements = 0
    · have hend : (t.«end» now).1 = t := by
        simp [NamedSharedTrace.«end», he]
      rw [hend]
      exact ⟨h, rfl⟩
    · have h1 : (t.«end» now).1.elements = t.elements - 1 := by
        simp [NamedSharedTrace.«end», he]
      have h2 : (t.«end» now).1.start_times = t.start_times := by
        simp [NamedSharedTrace.«end», he]
      simp only [NamedSharedTrace.capacity] at *
      rw [h1, h2]
      omega

/-- Witness for C6 at concrete traces. -/
theorem live_count_bounded_witness :
    (NamedSharedTrace.create "f").elements = 0 ∧
    ((NamedSharedTrace.createWithCapacity "g" 2).start 7).elements ≤
      ((NamedSharedTrace.createWithCapacity "g" 2).start 7).capacity ∧
    (((NamedSharedTrace.createWithCapacity "g" 2).«end» 9).1).elements ≤
      (((NamedSharedTrace.createWithCapacity "g" 2).«end» 9).1).capacity := by
  have h := live_count_bounded
  exact ⟨(h.1 "f").1,
    (h.2.1 (NamedSharedTrace.createWithCapacity "g" 2) 7 (by decide)).1,
    (h.2.2 (NamedSharedTrace.createWithCapacity "g" 2) 9 (by decide)).1⟩

/-- C10: the cursor-coherence invariant — `counter_push_` equals
`(counter_pop_ + elements_) mod capacity` with both cursors in bounds —
holds at construction and is preserved by every `start` and `end` call,
rejected cases included. -/
theorem cursor_coherence_invariant :
    (∀ name : String, (NamedSharedTrace.create name).Coherent) ∧
    (∀ (t : NamedSharedTrace) (now : Int), t.Coherent → (t.start now).Coherent) ∧
    (∀ (t : NamedSharedTrace) (now : Int), t.Coherent → ((t.«end» now).1).Coherent) := by
  refine ⟨?_, ?_, ?_⟩
  · intro name
    refine ⟨?_, ?_, ?_⟩ <;>
      simp [NamedSharedTrace.create, NamedSharedTrace.createWithCapacity,
        NamedSharedTrace.Coherent, TRACE_SIZE_INIT]
  · intro t now h
    obtain ⟨hpush, hplt, hqlt⟩ := h
    have hlen : 0 < t.start_times.length := Nat.lt_of_le_of_lt (Nat.zero_le _) hplt
    by_cases hfull : t.elements ≥ t.start_times.length
    · simp only [NamedSharedTrace.start, if_pos hfull]
      exact ⟨hpush, hplt, hqlt⟩
    · simp only [NamedSharedTrace.start, if_neg hfull]
      refine ⟨?_, ?_, ?_⟩
      · simp only [List.length_set]
        rw [hpush, Nat.mod_add_mod, Nat.add_assoc]
      · simp only [List.length_set]
        exact Nat.mod_lt _ hlen
      · simpa only [List.length_set] using hqlt
  · intro t now h
    obtain ⟨hpush, hplt, hqlt⟩ := h
    have hlen : 0 < t.start_times.length := Nat.lt_of_le_of_lt (Nat.zero_le _) hplt
    by_cases he : t.elements = 0
    · have hend : (t.«end» now).1 = t := by
        simp [NamedSharedTrace.«end», he]
      rw [hend]
      exact ⟨hpush, hplt, hqlt⟩
    · have h1 : (t.«end» now).1.counter_push = t.counter_push := by
        simp [NamedSharedTrace.«end», he]
      have h2 : (t.«end» now).1.counter_pop =
          (t.counter_pop + 1) % t.start_times.length := by
        simp [NamedSharedTrace.«end», he]
      have h3 : (t.«end» now).1.elements = t.elements - 1 := by
        simp [NamedSharedTrace.«end», he]
      have h4 : (t.«end» now).1.start_times = t.start_times := by
        simp [NamedSharedTrace.«end», he]
      refine ⟨?_, ?_, ?_⟩
      · rw [h1, h2, h3, h4, hpush, Nat.mod_add_mod]
        congr 1
        omega
      · rw [h1, h4]
        exact hplt
      · rw [h2, h4]
        exact Nat.mod_lt _ hlen

/-- Witness for C10 at a concrete coherent trace. -/
theorem cursor_coherence_invariant_witness :
    ((NamedSharedTrace.createWithCapacity "h" 2).start 7).Coherent ∧
    (((NamedSharedTrace.createWithCapacity "h" 2).«end» 9).1).Coherent := by
  have h := cursor_coherence_invariant
  exact ⟨h.2.1 (NamedSharedTrace.createWithCapacity "h" 2) 7 (by decide),
    h.2.2 (NamedSharedTrace.createWithCapacity "h" 2) 9 (by decide)⟩

/-- C3: `start()` on a full buffer is rejected with no state change, and from
a fresh trace of capacity `cap`, `cap + 5` consecutive `start()` calls leave
exactly `cap` pending starts, after which `cap` `end()` calls submit exactly
`cap` events. -/
theorem start_rejected_when_full :
    (∀ (t : NamedSharedTrace) (now : Int),
      t.elements = t.capacity → t.start now = t) ∧
    (∀ (name : String) (cap : Nat) (nows ends : List Int),
      nows.length = cap + 5 → ends.length = cap →
      (startMany (NamedSharedTrace.createWithCapacity name cap) nows).elements = cap ∧
      (endMany (startMany (NamedSharedTrace.createWithCapacity name cap) nows) ends).2.length
        = cap) := by
  constructor
  · intro t now h
    simp only [NamedSharedTrace.capacity] at h
    simp [NamedSharedTrace.start, h]
  · intro name cap nows ends hn he
    have hlen : (NamedSharedTrace.createWithCapacity name cap).start_times.length = cap := by
      simp [NamedSharedTrace.createWithCapacity]
    have h0 : (NamedSharedTrace.createWithCapacity name cap).elements ≤
        (NamedSharedTrace.createWithCapacity name cap).start_times.length := by
      simp [NamedSharedTrace.createWithCapacity]
    have hs := startMany_elements nows (NamedSharedTrace.createWithCapacity name cap) h0
    have hel : (startMany (NamedSharedTrace.createWithCapacity name cap) nows).elements = cap := by
      rw [hs.1, hlen]
      have : (NamedSharedTrace.createWithCapacity name cap).elements = 0 := rfl
      omega
    refine ⟨hel, ?_⟩
    rw [endMany_events_length, hel, he]
    omega

/-- Witness for C3 at capacity 2 with 7 starts and 2 ends. -/
theorem start_rejected_when_full_witness :
    (startMany (NamedSharedTrace.createWithCapacity "w" 2) [1, 2]).elements =
      (startMany (NamedSharedTrace.createWithCapacity "w" 2) [1, 2]).capacity ∧
    (startMany (NamedSharedTrace.createWithCapacity "w" 2) [1, 2]).start 3 =
      startMany (NamedSharedTrace.createWithCapacity "w" 2) [1, 2] ∧
    (startMany (NamedSharedTrace.createWithCapacity "w" 2) [1, 2, 3, 4, 5, 6, 7]).elements = 2 ∧
    (endMany (startMany (NamedSharedTrace.createWithCapacity "w" 2) [1, 2, 3, 4, 5, 6, 7])
      [8, 9]).2.length = 2 := by
  have h := start_rejected_when_full
  have h2 := h.2 "w" 2 [1, 2, 3, 4, 5, 6, 7] [8, 9] rfl rfl
  exact ⟨by decide, h.1 _ 3 (by decide), h2.1, h2.2⟩

/-- C5: matching is strictly FIFO. Each successful `end()` submits the
oldest still-unmatched start instant — the front of the pending FIFO, i.e.
the slot at the pop (head) cursor — and removes exactly it, while an
accepted `start()` appends its instant at the back; no call-site identity is
involved anywhere in the state. -/
theorem fifo_matching (t : NamedSharedTrace) (now : Int) (h : t.Coherent) :
    (t.elements ≠ 0 →
      (t.«end» now).2 = some (t.trace_name, t.pending.headD 0, now) ∧
      t.pending.headD 0 = t.start_times.getD t.counter_pop 0 ∧
      (t.«end» now).1.pending = t.pending.tail) ∧
    (t.elements < t.capacity →
      (t.start now).pending = t.pending ++ [now]) := by
  constructor
  · intro he
    have hp := pending_after_end t now h he
    refine ⟨hp.1, ?_, hp.2⟩
    obtain ⟨hpush, hplt, hqlt⟩ := h
    obtain ⟨k, hk⟩ : ∃ k, t.elements = k + 1 := ⟨t.elements - 1, by omega⟩
    unfold NamedSharedTrace.pending
    rw [hk, List.range_succ_eq_map, List.map_cons]
    simp [Nat.mod_eq_of_lt hqlt]
  · intro hroom
    exact pending_after_start t now h
      (by simpa [NamedSharedTrace.capacity] using hroom)

/-- Witness for C5 at a concrete coherent trace holding one pending start. -/
theorem fifo_matching_witness :
    ((((NamedSharedTrace.createWithCapacity "q" 2).start 5).«end» 9).2 =
      some (((NamedSharedTrace.createWithCapacity "q" 2).start 5).trace_name,
        ((NamedSharedTrace.createWithCapacity "q" 2).start 5).pending.headD 0, 9) ∧
      ((NamedSharedTrace.createWithCapacity "q" 2).start 5).pending.headD 0 =
        ((NamedSharedTrace.createWithCapacity "q" 2).start 5).start_times.getD
          ((NamedSharedTrace.createWithCapacity "q" 2).start 5).counter_pop 0 ∧
      ((((NamedSharedTrace.createWithCapacity "q" 2).start 5).«end» 9).1).pending =
        ((NamedSharedTrace.createWithCapacity "q" 2).start 5).pending.tail) ∧
    (((NamedSharedTrace.createWithCapacity "q" 2).start 5).start 6).pending =
      ((NamedSharedTrace.createWithCapacity "q" 2).start 5).pending ++ [6] :=
  ⟨(fifo_matching ((NamedSharedTrace.createWithCapacity "q" 2).start 5) 9
      (by decide)).1 (by decide),
   (fifo_matching ((NamedSharedTrace.createWithCapacity "q" 2).start 5) 6
      (by decide)).2 (by decide)⟩

/-- `take` at the index of the first occurrence of `c` keeps exactly the
longest `c`-free prefix. -/
theorem take_of_strFind_eq_some {c : Char} {s : List Char} {pos : Nat}
    (h : strFind s c = some pos) :
    s.take pos = s.takeWhile (fun x => x ≠ c) := by
  induction s generalizing pos with
  | nil => simp [strFind] at h
  | cons a l ih =>
    by_cases hac : a = c
    · have h0 : pos = 0 := by
        simp [strFind, List.findIdx?_cons, hac] at h
        omega
      subst h0
      simp [List.takeWhile_cons, hac]
    · have hfind : strFind (a :: l) c = (strFind l c).map (fun k => k + 1) := by
        simp [strFind, List.findIdx?_cons, hac]
      rw [hfind] at h
      obtain ⟨q, hq, hpos⟩ := Option.map_eq_some'.mp h
      rw [← hpos, List.take_succ_cons, List.takeWhile_cons, if_pos (by simp [hac]),
        ih hq]

/-- If `c` does not occur, the `c`-free prefix is the whole string. -/
theorem takeWhile_of_strFind_eq_none {c : Char} {s : List Char}
    (h : strFind s c = none) :
    s.takeWhile (fun x => x ≠ c) = s := by
  apply List.takeWhile_eq_self_iff.mpr
  intro x hx
  have hfalse := List.findIdx?_eq_none_iff.mp h x hx
  simp at hfalse ⊢
  exact hfalse

/-- The find-then-truncate step equals taking the longest `c`-free prefix. -/
theorem truncAtFirst_eq_takeWhile (s : List Char) (c : Char) :
    truncAtFirst s c = s.takeWhile (fun x => x ≠ c) := by
  unfold truncAtFirst
  cases h : strFind s c with
  | none => rw [takeWhile_of_strFind_eq_none h]
  | some pos => exact take_of_strFind_eq_some h

/-- The rfind-then-drop step equals keeping the longest `c`-free suffix. -/
theorem afterLast_eq_rtakeWhile (s : List Char) (c : Char) :
    afterLast s c = (s.reverse.takeWhile (fun x => x ≠ c)).reverse := by
  unfold afterLast
  cases h : strRfind s c with
  | none =>
    have hrev : strFind s.reverse c = none := by
      unfold strRfind at h
      cases hr : strFind s.reverse c with
      | none => rfl
      | some i =>
        unfold strFind at hr
        rw [hr] at h
        simp at h
    rw [takeWhile_of_strFind_eq_none hrev, List.reverse_reverse]
  | some pos =>
    show s.drop (pos + 1) = (s.reverse.takeWhile (fun x => x ≠ c)).reverse
    unfold strRfind at h
    cases hr : s.reverse.findIdx? (fun x => x = c) with
    | none =>
      rw [hr] at h
      simp at h
    | some i =>
      rw [hr] at h
      simp only [Option.map_some', Option.some.injEq] at h
      have hi : i < s.length := by
        have := (List.findIdx?_eq_some_iff_findIdx_eq.mp hr).1
        simpa using this
      have htake : s.reverse.take i = s.reverse.takeWhile (fun x => x ≠ c) :=
        take_of_strFind_eq_some hr
      rw [← htake]
      have hpos1 : pos + 1 = s.length - i := by omega
      rw [hpos1]
      exact List.rtake_eq_reverse_take_reverse s i

/-- C8: `extract_trace_name` first truncates at (and excludes) the first
`'('` if any, then keeps only the part strictly after the last remaining
space if any; the result therefore contains neither `'('` nor `' '`, and an
input with neither character comes back unchanged. -/
theorem extract_trace_name_spec (s : List Char) :
    extract_trace_name s = specAfterLastSpace (specTruncAtFirstParen s) ∧
    '(' ∉ extract_trace_name s ∧
    ' ' ∉ extract_trace_name s ∧
    ('(' ∉ s → ' ' ∉ s → extract_trace_name s = s) := by
  have heq : extract_trace_name s = specAfterLastSpace (specTruncAtFirstParen s) := by
    unfold extract_trace_name specAfterLastSpace specTruncAtFirstParen
    rw [truncAtFirst_eq_takeWhile, afterLast_eq_rtakeWhile]
  refine ⟨heq, ?_, ?_, ?_⟩
  · intro hmem
    rw [heq] at hmem
    unfold specAfterLastSpace specTruncAtFirstParen at hmem
    rw [List.mem_reverse] at hmem
    have h1 := (List.takeWhile_sublist _).subset hmem
    rw [List.mem_reverse] at h1
    have h2 := List.mem_takeWhile_imp h1
    simp at h2
  · intro hmem
    rw [heq] at hmem
    unfold specAfterLastSpace at hmem
    rw [List.mem_reverse] at hmem
    have h2 := List.mem_takeWhile_imp hmem
    simp at h2
  · intro hparen hspace
    have h1 : s.takeWhile (fun x => x ≠ '(') = s :=
      List.takeWhile_eq_self_iff.mpr fun x hx => by
        have hne : x ≠ '(' := fun hEq => hparen (hEq ▸ hx)
        simpa using hne
    have h2 : s.reverse.takeWhile (fun x => x ≠ ' ') = s.reverse :=
      List.takeWhile_eq_self_iff.mpr fun x hx => by
        have hne : x ≠ ' ' := fun hEq => hspace (hEq ▸ List.mem_reverse.mp hx)
        simpa using hne
    rw [heq]
    unfold specAfterLastSpace specTruncAtFirstParen
    rw [h1, h2, List.reverse_reverse]

/-- Witness for C8 on a concrete signature without parenthesis or space. -/
theorem extract_trace_name_spec_witness :
    extract_trace_name ['a', 'b', 'c'] =
      specAfterLastSpace (specTruncAtFirstParen ['a', 'b', 'c']) ∧
    '(' ∉ extract_trace_name ['a', 'b', 'c'] ∧
    ' ' ∉ extract_trace_name ['a', 'b', 'c'] ∧
    extract_trace_name ['a', 'b', 'c'] = ['a', 'b', 'c'] := by
  have h := extract_trace_name_spec ['a', 'b', 'c']
  exact ⟨h.1, h.2.1, h.2.2.1, h.2.2.2 (by decide) (by decide)⟩

end Yaets
